import Mathlib

/-!
Verification of the Hyperband hyperparameter tuner (hyperband.py, the
sequential variant, and hyperband_distributed.py, the dask variant).

The Python code is shallowly embedded as follows.

Real arithmetic: the Python sources compute with floats; the model uses
exact rational arithmetic over the same formulas.  Every concrete schedule
appearing in a theorem below (R = 81, eta = 3, and the small
counterexample instances) was checked to be computed exactly by binary
floating point as well, so the rational model and the float code agree on
those inputs.

Logarithms: math.floor(math.log(x, eta)) is modelled by floorLogQ, the
exact floor of the base-eta logarithm, implemented by bounded search.
math.log raises ZeroDivisionError when the base is 1 (division by
log(1) = 0) and ValueError when its argument is nonpositive; the callers
of the model reproduce those outcomes.

Exceptions: Python exceptions are modelled by the PyErr type inside an
Except monad.  AssertionError comes from the assert in the top-k
selection, ValueError from tuple unpacking of an empty zip, from the
constructor argument checks and from taking min of an empty sequence,
ZeroDivisionError from a base-1 logarithm, RuntimeError from the
NoResult check in run, IndexError from indexing an empty tuple, and
NameError from reading the loop variable losses when the rung loop ran
zero times.

Configurations: the scheduler is generic over the configuration type.
heapq.nsmallest compares (loss, config) tuples, which falls through to
comparing configurations whenever two losses are equal, so the main model
requires a linear order on configurations (mirroring orderable Python
values), and nsmallest is modelled as a stable insertion sort followed by
take, which agrees with the documented semantics
sorted(iterable)[:n] of heapq.nsmallest.  A second model, top_kNoOrder,
keeps the comparison partial (Option Bool, with none meaning that the
Python comparison raises TypeError) in order to settle the claim about
opaque configuration types.

Concurrency: the dask variant submits brackets and rung evaluations as
tasks and gathers them; gather preserves submission order and propagates
the first failure.  Since sampler and evaluator are modelled as pure
functions, the gathered results are modelled by evaluating the brackets
in submission order.
-/

namespace HyperbandModel

/-- Python exceptions that the two modules can raise. -/
inductive PyErr where
  | assertionError : PyErr
  | valueError : String → PyErr
  | typeError : String → PyErr
  | zeroDivisionError : PyErr
  | runtimeError : String → PyErr
  | indexError : PyErr
  | nameError : PyErr
deriving DecidableEq, Repr

/-- Message of the ValueError raised by unpacking an empty zip in top-k. -/
def unpackMsg : String := "not enough values to unpack"

/-- Message of the ValueError raised by the constructor when R is below 1. -/
def rMsg : String := "R must be at least 1.0"

/-- Message of the ValueError raised by the constructor when eta is not positive. -/
def etaMsg : String := "eta must be strictly positive"

/-- Message of the RuntimeError raised by run when no bracket ever ran. -/
def noResultMsg : String := "No hyperparameter configs were evaluated"

/-- Message of the ValueError raised by math.log on a nonpositive argument. -/
def domainMsg : String := "math domain error"

/-- Message of the ValueError raised by min on an empty sequence. -/
def emptyMinMsg : String := "min arg is an empty sequence"

/-- Message of the TypeError raised by comparing order-less configurations. -/
def cmpMsg : String := "unorderable configuration types"

/-- The named tuple ConfigEvaluation(config, loss) of both modules. -/
structure ConfigEvaluation (α : Type) where
  config : α
  loss : ℚ
deriving DecidableEq, Repr

/-- The order in which Python compares (loss, config) tuples: first by
loss, and only on exactly equal losses by the configuration value. -/
def lexLE {α : Type} [LinearOrder α] (p q : ℚ × α) : Prop :=
  p.1 < q.1 ∨ (p.1 = q.1 ∧ p.2 ≤ q.2)

instance lexLE.decRel {α : Type} [LinearOrder α] : DecidableRel (lexLE (α := α)) :=
  fun p q => decidable_of_iff (p.1 < q.1 ∨ (p.1 = q.1 ∧ p.2 ≤ q.2)) Iff.rfl

instance lexLE.isTotal {α : Type} [LinearOrder α] : IsTotal (ℚ × α) lexLE where
  total p q := by
    rcases lt_trichotomy p.1 q.1 with h | h | h
    · exact Or.inl (Or.inl h)
    · rcases le_total p.2 q.2 with h2 | h2
      · exact Or.inl (Or.inr ⟨h, h2⟩)
      · exact Or.inr (Or.inr ⟨h.symm, h2⟩)
    · exact Or.inr (Or.inl h)

instance lexLE.isTrans {α : Type} [LinearOrder α] : IsTrans (ℚ × α) lexLE where
  trans p q s hpq hqs := by
    rcases hpq with h1 | ⟨h1, h1c⟩
    · rcases hqs with h2 | ⟨h2, _⟩
      · exact Or.inl (h1.trans h2)
      · exact Or.inl (h2 ▸ h1)
    · rcases hqs with h2 | ⟨h2, h2c⟩
      · exact Or.inl (h1 ▸ h2)
      · exact Or.inr ⟨h1.trans h2, h1c.trans h2c⟩

instance lexLE.isAntisymm {α : Type} [LinearOrder α] : IsAntisymm (ℚ × α) lexLE where
  antisymm p q hpq hqp := by
    rcases hpq with h1 | ⟨h1, h1c⟩
    · rcases hqp with h2 | ⟨h2, _⟩
      · exact absurd (h1.trans h2) (lt_irrefl _)
      · exact absurd h1 (h2 ▸ lt_irrefl _)
    · rcases hqp with h2 | ⟨h2, h2c⟩
      · exact absurd h2 (h1 ▸ lt_irrefl _)
      · exact Prod.ext h1 (le_antisymm h1c h2c)

/-- heapq.nsmallest k over (loss, config) tuples: the documented semantics
is sorted(iterable)[:k].  The sort key is the full tuple, so equal losses
fall through to the configuration order. -/
def nsmallest {α : Type} [LinearOrder α] (k : ℕ) (l : List (ℚ × α)) : List (ℚ × α) :=
  (List.insertionSort lexLE l).take k

/-- The function top-k of both modules (spelled with a leading underscore
in Python).  It asserts k at least 1, then unpacks
zip(*heapq.nsmallest(k, zip(losses, configs))), which raises ValueError
when the zip is empty.  For k above the input length, nsmallest silently
returns every entry sorted.  It never mutates its arguments (the model is
pure, as is the Python function: nsmallest copies). -/
def top_k {α : Type} [LinearOrder α] (configs : List α) (losses : List ℚ) (k : ℤ) :
    Except PyErr (List α × List ℚ) :=
  if k < 1 then .error .assertionError
  else
    match nsmallest k.toNat (losses.zip configs) with
    | [] => .error (.valueError unpackMsg)
    | p :: ps => .ok (((p :: ps).map Prod.snd), ((p :: ps).map Prod.fst))

/-- The per-rung survivor count max(1, floor(nI / eta)) shared by both
variants (hyperband.py line 100 and hyperband_distributed.py line 79). -/
def rungK (eta : ℚ) (nI : ℤ) : ℤ :=
  max 1 ⌊(nI : ℚ) / eta⌋

/-- One iteration of the successive-halving loop shared by both variants:
nI = floor(n * eta ^ (-i)), rI = r * eta ^ i, evaluate every configuration
in T at rI, then cull with top-k. -/
def rungStep {α : Type} [LinearOrder α] (f : α → ℚ → ℚ) (r eta : ℚ) (n : ℤ) (i : ℕ)
    (T : List α) : Except PyErr (List α × List ℚ) :=
  let nI : ℤ := ⌊(n : ℚ) * eta ^ (-(i : ℤ))⌋
  let rI : ℚ := r * eta ^ i
  let L : List ℚ := T.map (fun t => f t rI)
  top_k T L (rungK eta nI)

/-- The loop for i in range(s + 1) of the successive-halving body, run
from rung index i for m further rungs (so m = s runs rungs i = 0 .. s when
started at 0); returns the final (T, losses) pair.  The loop always runs
at least once. -/
def runRungsFrom {α : Type} [LinearOrder α] (f : α → ℚ → ℚ) (r eta : ℚ) (n : ℤ) :
    ℕ → List α → ℕ → Except PyErr (List α × List ℚ)
  | i, T, 0 => rungStep f r eta n i T
  | i, T, m + 1 => do
    let (T2, _) ← rungStep f r eta n i T
    runRungsFrom f r eta n (i + 1) T2 m

/-- Search bound for the exact base-b logarithm of x: when b is a rational
above 1, b ^ s is at least 1 + s / b.den, so any s with b ^ s at most x
satisfies s at most b.den * x.num. -/
def logUB (b x : ℚ) : ℕ :=
  b.den * x.num.natAbs + 1

/-- Least natural s with x at most b ^ s, for b above 1 (the exact ceiling
of the base-b logarithm for arguments at least 1). -/
def ceilLogGT1 (b x : ℚ) : ℤ :=
  if x ≤ 1 then 0 else (Nat.findGreatest (fun s => b ^ s < x) (logUB b x) : ℤ) + 1

/-- Exact value of math.floor(math.log(x, eta)) for eta positive and not
1, and x at least 1 (the only inputs the two modules feed it after their
argument checks): for eta above 1 it is the greatest natural s with
eta ^ s at most x, and for eta below 1 it is minus the ceiling of the
base (1 / eta) logarithm. -/
def floorLogQ (eta x : ℚ) : ℤ :=
  if 1 < eta then (Nat.findGreatest (fun s => eta ^ s ≤ x) (logUB eta x) : ℤ)
  else -(ceilLogGT1 (1 / eta) x)

/-- The state the Hyperband constructor of either module stores: R, eta,
s_max = floor(log_eta R) and B = (s_max + 1) * R. -/
structure Params where
  R : ℚ
  eta : ℚ
  sMax : ℤ
  B : ℚ
deriving DecidableEq, Repr

/-- The constructor of class Hyperband (identical in both modules): raise
ValueError if R is below 1, raise ValueError if eta is not positive, then
compute s_max = floor(log(R, eta)), which raises ZeroDivisionError when
eta is exactly 1 because log(R, 1) divides by log(1) = 0, and finally
B = (s_max + 1) * R. -/
def mkHyperband (R eta : ℚ) : Except PyErr Params :=
  if R < 1 then .error (.valueError rMsg)
  else if eta ≤ 0 then .error (.valueError etaMsg)
  else if eta = 1 then .error .zeroDivisionError
  else
    let sMax := floorLogQ eta R
    .ok ⟨R, eta, sMax, (sMax + 1) * R⟩

/-- range(sMax, -1, -1): the bracket indices sMax, sMax - 1, ..., 0, empty
when sMax is negative. -/
def descRange (z : ℤ) : List ℕ :=
  if z < 0 then [] else (List.range (z.toNat + 1)).reverse

/-- Initial population of bracket s: n = ceil(B * eta ^ s / (R * (s + 1))). -/
def bracketN (p : Params) (s : ℕ) : ℤ :=
  ⌈p.B * p.eta ^ s / (p.R * ((s : ℚ) + 1))⌉

/-- Initial resource of bracket s: r = R * eta ^ (-s). -/
def bracketR (p : Params) (s : ℕ) : ℚ :=
  p.R * p.eta ^ (-(s : ℤ))

/-- The full bracket schedule (s, n, r) in descending order of s. -/
def scheduleOf (p : Params) : List (ℕ × ℤ × ℚ) :=
  (descRange p.sMax).map (fun s => (s, bracketN p s, bracketR p s))

/-- ConfigEvaluation(T[0], losses[0]): IndexError on an empty tuple. -/
def evalOfHead {α : Type} (T : List α) (L : List ℚ) : Except PyErr (ConfigEvaluation α) :=
  match T, L with
  | c :: _, l :: _ => .ok ⟨c, l⟩
  | _, _ => .error .indexError

/-- One bracket of the sequential variant (the body of the for s loop of
Hyperband.step_generator in hyperband.py, lines 91 to 103): sample
T = sampler(n), run rungs i = 0 .. s, and read off (T[0], losses[0]). -/
def seqBracket {α : Type} [LinearOrder α] (sampler : ℤ → List α) (f : α → ℚ → ℚ)
    (p : Params) (s : ℕ) : Except PyErr (ConfigEvaluation α) := do
  let n := bracketN p s
  let T := sampler n
  let (T2, L2) ← runRungsFrom f (bracketR p s) p.eta n 0 T s
  evalOfHead T2 L2

/-- The best-so-far update of step_generator: replace only when the new
loss is strictly lower (or when there is no best yet). -/
def betterEval {α : Type} (best : Option (ConfigEvaluation α)) (ev : ConfigEvaluation α) :
    Option (ConfigEvaluation α) :=
  match best with
  | none => some ev
  | some b => if ev.loss < b.loss then some ev else some b

/-- The for s in range(s_max, -1, -1) loop of step_generator, folding the
best-so-far through the brackets. -/
def bracketLoop {α : Type} [LinearOrder α] (sampler : ℤ → List α) (f : α → ℚ → ℚ)
    (p : Params) : List ℕ → Option (ConfigEvaluation α) →
    Except PyErr (Option (ConfigEvaluation α))
  | [], best => .ok best
  | s :: ss, best => do
    let ev ← seqBracket sampler f p s
    bracketLoop sampler f p ss (betterEval best ev)

/-- Hyperband.run of hyperband.py on already constructed parameters:
exhaust the generator, then raise RuntimeError if no bracket ever ran. -/
def seqRunP {α : Type} [LinearOrder α] (sampler : ℤ → List α) (f : α → ℚ → ℚ)
    (p : Params) : Except PyErr (ConfigEvaluation α) := do
  let best ← bracketLoop sampler f p (descRange p.sMax) none
  match best with
  | some b => .ok b
  | none => .error (.runtimeError noResultMsg)

/-- Constructing the sequential Hyperband and calling run. -/
def seqRun {α : Type} [LinearOrder α] (sampler : ℤ → List α) (f : α → ℚ → ℚ)
    (R eta : ℚ) : Except PyErr (ConfigEvaluation α) := do
  let p ← mkHyperband R eta
  seqRunP sampler f p

/-- All configurations sampled by the brackets of a given index list. -/
def sampledOver {α : Type} (sampler : ℤ → List α) (p : Params) : List ℕ → List α
  | [] => []
  | s :: ss => sampler (bracketN p s) ++ sampledOver sampler p ss

/-- All configurations sampled across all brackets of the schedule. -/
def allSampled {α : Type} (sampler : ℤ → List α) (p : Params) : List α :=
  sampledOver sampler p (descRange p.sMax)

/-- successive_halving of hyperband_distributed.py (lines 43 to 81): sample
T = sampler(n), compute its own rung count s = floor(log(n, eta)) (raising
ValueError if n is not positive, like math.log), run rungs i = 0 .. s and
return ConfigEvaluation(T[0], losses[0]).  When floor(log(n, eta)) is
negative the Python loop body never runs and reading losses raises
NameError. -/
def distBracket {α : Type} [LinearOrder α] (sampler : ℤ → List α) (f : α → ℚ → ℚ)
    (eta : ℚ) (n : ℤ) (r : ℚ) : Except PyErr (ConfigEvaluation α) :=
  let T := sampler n
  if (n : ℚ) ≤ 0 then .error (.valueError domainMsg)
  else
    let s := floorLogQ eta (n : ℚ)
    if s < 0 then .error .nameError
    else do
      let (T2, L2) ← runRungsFrom f r eta n 0 T s.toNat
      evalOfHead T2 L2

/-- Submitting one successive_halving task per bracket (in descending
order of s) and gathering the results: gather preserves submission order
and propagates the first failure. -/
def gatherBrackets {α : Type} [LinearOrder α] (sampler : ℤ → List α) (f : α → ℚ → ℚ)
    (p : Params) : List ℕ → Except PyErr (List (ConfigEvaluation α))
  | [] => .ok []
  | s :: ss => do
    let ev ← distBracket sampler f p.eta (bracketN p s) (bracketR p s)
    let rest ← gatherBrackets sampler f p ss
    .ok (ev :: rest)

/-- min(results, key=lambda x: x.loss): the first entry of minimal loss,
none when the list is empty. -/
def minByLoss {α : Type} (l : List (ConfigEvaluation α)) : Option (ConfigEvaluation α) :=
  l.foldl betterEval none

/-- Hyperband.run of hyperband_distributed.py: construct, submit one
bracket task per s in range(s_max, -1, -1), gather, then take the
minimum by loss (min raises ValueError on an empty sequence). -/
def distRun {α : Type} [LinearOrder α] (sampler : ℤ → List α) (f : α → ℚ → ℚ)
    (R eta : ℚ) : Except PyErr (ConfigEvaluation α) := do
  let p ← mkHyperband R eta
  let results ← gatherBrackets sampler f p (descRange p.sMax)
  match minByLoss results with
  | some b => .ok b
  | none => .error (.valueError emptyMinMsg)

/-- Instrumented successive-halving loop: additionally counts evaluator
calls (one per configuration per rung) and top-k invocations (one per
rung).  The computation itself is identical to runRungsFrom. -/
def runRungsFromI {α : Type} [LinearOrder α] (f : α → ℚ → ℚ) (r eta : ℚ) (n : ℤ) :
    ℕ → List α → ℕ → ℕ → ℕ → Except PyErr (List α × List ℚ × ℕ × ℕ)
  | i, T, evals, topks, 0 => do
    let (T2, L2) ← rungStep f r eta n i T
    .ok (T2, L2, evals + T.length, topks + 1)
  | i, T, evals, topks, m + 1 => do
    let (T2, _) ← rungStep f r eta n i T
    runRungsFromI f r eta n (i + 1) T2 (evals + T.length) (topks + 1) m

/-- Instrumented successive_halving: the result of distBracket together
with the number of evaluator calls and the number of top-k invocations. -/
def distBracketI {α : Type} [LinearOrder α] (sampler : ℤ → List α) (f : α → ℚ → ℚ)
    (eta : ℚ) (n : ℤ) (r : ℚ) : Except PyErr (ConfigEvaluation α × ℕ × ℕ) :=
  let T := sampler n
  if (n : ℚ) ≤ 0 then .error (.valueError domainMsg)
  else
    let s := floorLogQ eta (n : ℚ)
    if s < 0 then .error .nameError
    else do
      let (T2, L2, ev, tk) ← runRungsFromI f r eta n 0 T 0 0 s.toNat
      match T2, L2 with
      | c :: _, l :: _ => .ok (⟨c, l⟩, ev, tk)
      | _, _ => .error .indexError

/-- Python comparison of (loss, config) tuples over a configuration type
whose comparison may fail: equal losses fall through to the configuration
comparison, and none models a TypeError. -/
def pyLtPair {β : Type} (cmpLT : β → β → Option Bool) (p q : ℚ × β) : Option Bool :=
  if p.1 = q.1 then cmpLT p.2 q.2 else if p.1 < q.1 then some true else some false

/-- Insertion into a sorted list driven by a fallible strict comparison;
an unanswerable comparison raises TypeError, exactly as the comparisons
inside heapq.nsmallest do. -/
def orderedInsertF {β : Type} (lt : β → β → Option Bool) (a : β) :
    List β → Except PyErr (List β)
  | [] => .ok [a]
  | b :: l =>
    match lt a b with
    | none => .error (.typeError cmpMsg)
    | some true => .ok (a :: b :: l)
    | some false => do
      let l2 ← orderedInsertF lt a l
      .ok (b :: l2)

/-- Fallible stable sort: the comparison discipline of sorting (loss,
config) tuples whose configuration comparison may raise. -/
def insertionSortF {β : Type} (lt : β → β → Option Bool) :
    List β → Except PyErr (List β)
  | [] => .ok []
  | a :: l => do
    let l2 ← insertionSortF lt l
    orderedInsertF lt a l2

/-- The top-k selection over an opaque configuration type: identical to
top_k except that the tuple comparison is fallible.  A configuration type
supporting nothing beyond copying is modelled by the comparison that
always returns none (every comparison between two such values raises
TypeError in Python). -/
def top_kNoOrder {β : Type} (cmpLT : β → β → Option Bool) (configs : List β)
    (losses : List ℚ) (k : ℤ) : Except PyErr (List β × List ℚ) :=
  if k < 1 then .error .assertionError
  else do
    let srt ← insertionSortF (pyLtPair cmpLT) (losses.zip configs)
    match srt.take k.toNat with
    | [] => .error (.valueError unpackMsg)
    | p :: ps => .ok (((p :: ps).map Prod.snd), ((p :: ps).map Prod.fst))

/-! Helper lemmas. -/

theorem lexLE_refl {α : Type} [LinearOrder α] (p : ℚ × α) : lexLE p p :=
  Or.inr ⟨rfl, le_refl _⟩

theorem lexLE_trans {α : Type} [LinearOrder α] {p q s : ℚ × α}
    (h1 : lexLE p q) (h2 : lexLE q s) : lexLE p s :=
  lexLE.isTrans.trans p q s h1 h2

theorem lexLE_fst {α : Type} [LinearOrder α] {p q : ℚ × α} (h : lexLE p q) :
    p.1 ≤ q.1 := by
  rcases h with h | ⟨h, _⟩
  · exact le_of_lt h
  · exact le_of_eq h

theorem except_bind_ok {ε α β : Type} (a : α) (f : α → Except ε β) :
    (Except.ok a : Except ε α) >>= f = f a := rfl

theorem except_bind_err {ε α β : Type} (e : ε) (f : α → Except ε β) :
    (Except.error e : Except ε α) >>= f = Except.error e := rfl

theorem zip_map_self {α : Type} (g : α → ℚ) (T : List α) :
    (T.map g).zip T = T.map fun c => (g c, c) := by
  induction T with
  | nil => rfl
  | cons a t ih => simp [ih]

theorem map_fst_eq_map_g {α : Type} (g : α → ℚ) (l : List (ℚ × α))
    (h : ∀ p ∈ l, p.1 = g p.2) : l.map Prod.fst = (l.map Prod.snd).map g := by
  induction l with
  | nil => rfl
  | cons p ps ih =>
    simp only [List.map_cons, List.cons.injEq]
    exact ⟨h p (List.mem_cons_self p ps), ih fun q hq => h q (List.mem_cons_of_mem p hq)⟩

theorem zip_fst_snd {β γ : Type} (l : List (β × γ)) :
    (l.map Prod.fst).zip (l.map Prod.snd) = l := by
  induction l with
  | nil => rfl
  | cons p ps ih => simp [ih]

/-- Structure of a successful top-k call on losses computed by a
resource-independent evaluator: the head of the result is a configuration
whose (loss, config) pair is a lexLE minimum of the input, the output
losses are the evaluations of the output configurations, and every output
configuration comes from the input. -/
theorem top_k_ok_of_map {α : Type} [LinearOrder α] (g : α → ℚ) (T : List α) (k : ℤ)
    (hT : T ≠ []) (hk : 1 ≤ k) :
    ∃ c T2, top_k T (T.map g) k = .ok (c :: T2, (c :: T2).map g) ∧
      (∀ x ∈ c :: T2, x ∈ T) ∧ ∀ x ∈ T, lexLE (g c, c) (g x, x) := by
  have hzip : (T.map g).zip T = T.map fun c => (g c, c) := zip_map_self g T
  have hperm : List.Perm (List.insertionSort lexLE ((T.map g).zip T)) ((T.map g).zip T) :=
    List.perm_insertionSort _ _
  have hsorted : (List.insertionSort lexLE ((T.map g).zip T)).Sorted lexLE :=
    List.sorted_insertionSort _ _
  have hmemT : ∀ p ∈ List.insertionSort lexLE ((T.map g).zip T),
      ∃ c, c ∈ T ∧ p = (g c, c) := by
    intro p hp
    have hp2 : p ∈ (T.map g).zip T := hperm.mem_iff.mp hp
    rw [hzip] at hp2
    obtain ⟨c, hc, hc2⟩ := List.mem_map.mp hp2
    exact ⟨c, hc, hc2.symm⟩
  have hne : List.insertionSort lexLE ((T.map g).zip T) ≠ [] := by
    intro h
    apply hT
    have := hperm.length_eq
    rw [h, hzip] at this
    simpa using (List.map_eq_nil_iff.mp (List.eq_nil_of_length_eq_zero this.symm))
  obtain ⟨p0, rest, hsrt⟩ := List.exists_cons_of_ne_nil hne
  obtain ⟨c0, hc0T, hc0⟩ := hmemT p0 (hsrt ▸ List.mem_cons_self p0 rest)
  have hmin : ∀ x ∈ T, lexLE p0 (g x, x) := by
    intro x hx
    have hx2 : (g x, x) ∈ List.insertionSort lexLE ((T.map g).zip T) := by
      apply hperm.mem_iff.mpr
      rw [hzip]
      exact List.mem_map.mpr ⟨x, hx, rfl⟩
    rw [hsrt] at hx2
    rcases List.mem_cons.mp hx2 with h | h
    · exact h ▸ lexLE_refl p0
    · exact (List.sorted_cons.mp (hsrt ▸ hsorted)).1 _ h
  obtain ⟨m, hm⟩ : ∃ m, k.toNat = m + 1 := ⟨k.toNat - 1, by omega⟩
  have htake : nsmallest k.toNat ((T.map g).zip T) = p0 :: rest.take m := by
    rw [nsmallest, hsrt, hm, List.take_succ_cons]
  have htakeT : ∀ p ∈ p0 :: rest.take m, ∃ c, c ∈ T ∧ p = (g c, c) := by
    intro p hp
    apply hmemT
    rw [hsrt]
    rcases List.mem_cons.mp hp with h | h
    · exact h ▸ List.mem_cons_self _ _
    · exact List.mem_cons_of_mem _ (List.take_subset m rest h)
  have htail : (rest.take m).map Prod.fst = ((rest.take m).map Prod.snd).map g := by
    apply map_fst_eq_map_g
    intro p hp
    obtain ⟨c, _, hc⟩ := htakeT p (List.mem_cons_of_mem p0 hp)
    rw [hc]
  refine ⟨c0, (rest.take m).map Prod.snd, ?_, ?_, ?_⟩
  · unfold top_k
    rw [if_neg (by omega), htake, hc0]
    change Except.ok (((g c0, c0) :: rest.take m).map Prod.snd,
      ((g c0, c0) :: rest.take m).map Prod.fst) = _
    simp [htail]
  · intro x hx
    rcases List.mem_cons.mp hx with h | h
    · exact h ▸ hc0T
    · obtain ⟨p, hp, hp2⟩ := List.mem_map.mp h
      obtain ⟨c, hcT, hc⟩ := htakeT p (List.mem_cons_of_mem p0 hp)
      rw [hc] at hp2
      exact hp2 ▸ hcT
  · intro x hx
    have := hmin x hx
    rwa [hc0] at this

theorem rungStep_def {α : Type} [LinearOrder α] (f : α → ℚ → ℚ) (r eta : ℚ) (n : ℤ)
    (i : ℕ) (T : List α) :
    rungStep f r eta n i T =
      top_k T (T.map fun t => f t (r * eta ^ i)) (rungK eta ⌊(n : ℚ) * eta ^ (-(i : ℤ))⌋) :=
  rfl

/-- One rung with a resource-independent evaluator keeps a lexLE-minimal
configuration at the head, keeps only input configurations, and pairs
every output configuration with its loss. -/
theorem rungStep_ok {α : Type} [LinearOrder α] (f : α → ℚ → ℚ) (g : α → ℚ)
    (hf : ∀ x ρ, f x ρ = g x) (r eta : ℚ) (n : ℤ) (i : ℕ) (T : List α) (hT : T ≠ []) :
    ∃ c T2, rungStep f r eta n i T = .ok (c :: T2, (c :: T2).map g) ∧
      (∀ x ∈ c :: T2, x ∈ T) ∧ ∀ x ∈ T, lexLE (g c, c) (g x, x) := by
  rw [rungStep_def]
  have hL : T.map (fun t => f t (r * eta ^ i)) = T.map g :=
    List.map_congr_left fun a _ => hf a _
  rw [hL]
  exact top_k_ok_of_map g T _ hT (le_max_left _ _)

/-- The whole rung loop with a resource-independent evaluator: the final
population is headed by a lexLE-minimal configuration of the initial
population, every survivor comes from the initial population, and the
final losses are the evaluations of the final population. -/
theorem runRungsFrom_ok {α : Type} [LinearOrder α] (f : α → ℚ → ℚ) (g : α → ℚ)
    (hf : ∀ x ρ, f x ρ = g x) (r eta : ℚ) (n : ℤ) :
    ∀ (m : ℕ) (i : ℕ) (T : List α), T ≠ [] →
    ∃ c T2, runRungsFrom f r eta n i T m = .ok (c :: T2, (c :: T2).map g) ∧
      (∀ x ∈ c :: T2, x ∈ T) ∧ ∀ x ∈ T, lexLE (g c, c) (g x, x) := by
  intro m
  induction m with
  | zero =>
    intro i T hT
    exact rungStep_ok f g hf r eta n i T hT
  | succ m ih =>
    intro i T hT
    obtain ⟨c, T2, heq, hmem, hmin⟩ := rungStep_ok f g hf r eta n i T hT
    obtain ⟨c2, T22, heq2, hmem2, hmin2⟩ := ih (i + 1) (c :: T2) (by simp)
    refine ⟨c2, T22, ?_, ?_, ?_⟩
    · show (do
        let (T2, _) ← rungStep f r eta n i T
        runRungsFrom f r eta n (i + 1) T2 m) = _
      rw [heq, except_bind_ok]
      exact heq2
    · exact fun x hx => hmem _ (hmem2 x hx)
    · intro x hx
      exact lexLE_trans (hmin2 c (List.mem_cons_self c T2)) (hmin x hx)

theorem evalOfHead_map {α : Type} [LinearOrder α] (g : α → ℚ) (c : α) (T2 : List α) :
    evalOfHead (c :: T2) ((c :: T2).map g) = .ok ⟨c, g c⟩ := rfl

/-- One sequential bracket with a nonempty sample and a
resource-independent evaluator returns the lexLE-minimal (loss, config)
pair of its sample. -/
theorem seqBracket_ok {α : Type} [LinearOrder α] (sampler : ℤ → List α) (f : α → ℚ → ℚ)
    (g : α → ℚ) (hf : ∀ x ρ, f x ρ = g x) (p : Params) (s : ℕ)
    (hne : sampler (bracketN p s) ≠ []) :
    ∃ c, seqBracket sampler f p s = .ok ⟨c, g c⟩ ∧ c ∈ sampler (bracketN p s) ∧
      ∀ x ∈ sampler (bracketN p s), lexLE (g c, c) (g x, x) := by
  obtain ⟨c, T2, heq, hmem, hmin⟩ :=
    runRungsFrom_ok f g hf (bracketR p s) p.eta (bracketN p s) s 0
      (sampler (bracketN p s)) hne
  refine ⟨c, ?_, hmem c (List.mem_cons_self c T2), hmin⟩
  show (do
    let (T2, L2) ← runRungsFrom f (bracketR p s) p.eta (bracketN p s) 0
      (sampler (bracketN p s)) s
    evalOfHead T2 L2) = _
  rw [heq, except_bind_ok]
  exact evalOfHead_map g c T2

/-- A valid constructor call with eta above 1 succeeds and stores the
schedule constants. -/
theorem mkHyperband_pos {R eta : ℚ} (hR : 1 ≤ R) (heta : 1 < eta) :
    mkHyperband R eta = .ok ⟨R, eta, floorLogQ eta R, (floorLogQ eta R + 1) * R⟩ := by
  unfold mkHyperband
  rw [if_neg (by linarith), if_neg (by linarith),
    if_neg (by intro h; rw [h] at heta; exact lt_irrefl 1 heta)]

theorem floorLogQ_nonneg {eta : ℚ} (x : ℚ) (h : 1 < eta) : 0 ≤ floorLogQ eta x := by
  unfold floorLogQ
  rw [if_pos h]
  exact Int.natCast_nonneg _

theorem descRange_of_nonneg {z : ℤ} (h : 0 ≤ z) :
    descRange z = z.toNat :: (List.range z.toNat).reverse := by
  unfold descRange
  rw [if_neg (by omega), List.range_succ, List.reverse_append]
  simp

/-- Invariant of the best-so-far fold over brackets: starting from a best
value that is a minimum over an already-sampled list S, the loop returns
a minimum over S together with everything sampled by the remaining
brackets. -/
theorem bracketLoop_min {α : Type} [LinearOrder α] (sampler : ℤ → List α)
    (f : α → ℚ → ℚ) (g : α → ℚ) (hf : ∀ x ρ, f x ρ = g x) (p : Params)
    (hs : ∀ n, sampler n ≠ []) :
    ∀ (ss : List ℕ) (S : List α) (best : Option (ConfigEvaluation α)),
    ((best = none ∧ S = []) ∨
      ∃ ev, best = some ev ∧ ev.config ∈ S ∧ ev.loss = g ev.config ∧
        ∀ x ∈ S, g ev.config ≤ g x) →
    ∃ res, bracketLoop sampler f p ss best = .ok res ∧
      ((res = none ∧ S ++ sampledOver sampler p ss = []) ∨
        ∃ ev, res = some ev ∧ ev.config ∈ S ++ sampledOver sampler p ss ∧
          ev.loss = g ev.config ∧ ∀ x ∈ S ++ sampledOver sampler p ss, g ev.config ≤ g x) := by
  intro ss
  induction ss with
  | nil =>
    intro S best hinv
    refine ⟨best, rfl, ?_⟩
    simpa [sampledOver] using hinv
  | cons s ss ih =>
    intro S best hinv
    obtain ⟨c, hceq, hcmem, hcmin⟩ := seqBracket_ok sampler f g hf p s (hs _)
    have hstep : ∃ ev2, betterEval best ⟨c, g c⟩ = some ev2 ∧
        ev2.config ∈ S ++ sampler (bracketN p s) ∧ ev2.loss = g ev2.config ∧
        ∀ x ∈ S ++ sampler (bracketN p s), g ev2.config ≤ g x := by
      rcases hinv with ⟨hb, hS⟩ | ⟨ev, hb, hmem, hloss, hminS⟩
      · subst hb; subst hS
        refine ⟨⟨c, g c⟩, rfl, by simpa using hcmem, rfl, ?_⟩
        intro x hx
        simp only [List.nil_append] at hx
        exact lexLE_fst (hcmin x hx)
      · subst hb
        simp only [betterEval]
        by_cases hlt : g c < ev.loss
        · rw [if_pos hlt]
          refine ⟨⟨c, g c⟩, rfl, List.mem_append_right S hcmem, rfl, ?_⟩
          intro x hx
          rcases List.mem_append.mp hx with h | h
          · calc g c ≤ ev.loss := le_of_lt hlt
              _ = g ev.config := hloss
              _ ≤ g x := hminS x h
          · exact lexLE_fst (hcmin x h)
        · rw [if_neg hlt]
          refine ⟨ev, rfl, List.mem_append_left _ hmem, hloss, ?_⟩
          intro x hx
          rcases List.mem_append.mp hx with h | h
          · exact hminS x h
          · calc g ev.config = ev.loss := hloss.symm
              _ ≤ g c := le_of_not_lt hlt
              _ ≤ g x := lexLE_fst (hcmin x h)
    obtain ⟨ev2, hev2, hmem2, hloss2, hmin2⟩ := hstep
    obtain ⟨res, hres, hinv2⟩ := ih (S ++ sampler (bracketN p s)) (betterEval best ⟨c, g c⟩)
      (Or.inr ⟨ev2, hev2, hmem2, hloss2, hmin2⟩)
    refine ⟨res, ?_, ?_⟩
    · show (do
        let ev ← seqBracket sampler f p s
        bracketLoop sampler f p ss (betterEval best ev)) = _
      rw [hceq, except_bind_ok]
      exact hres
    · have hass : S ++ sampledOver sampler p (s :: ss) =
          (S ++ sampler (bracketN p s)) ++ sampledOver sampler p ss := by
        show S ++ (sampler (bracketN p s) ++ sampledOver sampler p ss) = _
        rw [List.append_assoc]
      rw [hass]
      exact hinv2

/-- C1: with a deterministic sampler always producing a nonempty sample
and a deterministic evaluator whose loss g does not depend on the
resource level, run of the sequential variant returns a configuration of
minimal loss among all configurations sampled across all brackets,
paired with its exact loss. -/
theorem run_returns_min_loss_config {α : Type} [LinearOrder α] (sampler : ℤ → List α)
    (f : α → ℚ → ℚ) (g : α → ℚ) (hf : ∀ x ρ, f x ρ = g x) (hs : ∀ n, sampler n ≠ [])
    (R eta : ℚ) (hR : 1 ≤ R) (heta : 1 < eta) :
    ∃ p ev, mkHyperband R eta = .ok p ∧ seqRun sampler f R eta = .ok ev ∧
      ev.config ∈ allSampled sampler p ∧ ev.loss = g ev.config ∧
      ∀ x ∈ allSampled sampler p, ev.loss ≤ g x := by
  obtain ⟨res, hres, hinv⟩ := bracketLoop_min sampler f g hf
    ⟨R, eta, floorLogQ eta R, (floorLogQ eta R + 1) * R⟩ hs
    (descRange (floorLogQ eta R)) [] none (Or.inl ⟨rfl, rfl⟩)
  have hdesc : descRange (floorLogQ eta R) =
      (floorLogQ eta R).toNat :: (List.range (floorLogQ eta R).toNat).reverse :=
    descRange_of_nonneg (floorLogQ_nonneg R heta)
  have hne : sampledOver sampler ⟨R, eta, floorLogQ eta R, (floorLogQ eta R + 1) * R⟩
      (descRange (floorLogQ eta R)) ≠ [] := by
    rw [hdesc]
    show sampler _ ++ _ ≠ []
    simp [hs _]
  simp only [List.nil_append] at hinv
  rcases hinv with ⟨_, habs⟩ | ⟨ev, hev, hmem, hloss, hmin⟩
  · exact absurd habs hne
  refine ⟨⟨R, eta, floorLogQ eta R, (floorLogQ eta R + 1) * R⟩, ev,
    mkHyperband_pos hR heta, ?_, hmem, hloss, ?_⟩
  · show (mkHyperband R eta >>= seqRunP sampler f) = _
    rw [mkHyperband_pos hR heta, except_bind_ok]
    show (do
      let best ← bracketLoop sampler f ⟨R, eta, floorLogQ eta R, (floorLogQ eta R + 1) * R⟩
        (descRange (floorLogQ eta R)) none
      match best with
      | some b => Except.ok b
      | none => Except.error (.runtimeError noResultMsg)) = _
    rw [hres, except_bind_ok, hev]
  · intro x hx
    rw [hloss]
    exact hmin x hx

/-- Witness for C1 at a concrete instance: sampler always returning
[3, 1, 2], evaluator loss (c - 2) ^ 2 independent of the resource, R = 3,
eta = 3. -/
theorem run_returns_min_loss_config_witness :
    ∃ p ev, mkHyperband 3 3 = .ok p ∧
      seqRun (fun _ => [(3 : ℚ), 1, 2]) (fun c _ => (c - 2) ^ 2) 3 3 = .ok ev ∧
      ev.config ∈ allSampled (fun _ => [(3 : ℚ), 1, 2]) p ∧
      ev.loss = (ev.config - 2) ^ 2 ∧
      ∀ x ∈ allSampled (fun _ => [(3 : ℚ), 1, 2]) p, ev.loss ≤ (x - 2) ^ 2 :=
  run_returns_min_loss_config (fun _ => [(3 : ℚ), 1, 2]) (fun c _ => (c - 2) ^ 2)
    (fun c => (c - 2) ^ 2) (fun _ _ => rfl) (fun _ => by simp) 3 3 (by norm_num)
    (by norm_num)

/-- The losses of the lexLE-sorted (loss, config) pairs are exactly the
sorted losses: both are sorted permutations of the same list. -/
theorem map_fst_insertionSort {α : Type} [LinearOrder α] (configs : List α)
    (losses : List ℚ) (hlen : configs.length = losses.length) :
    (List.insertionSort lexLE (losses.zip configs)).map Prod.fst =
      List.insertionSort (fun a b : ℚ => a ≤ b) losses := by
  apply List.eq_of_perm_of_sorted (r := fun a b : ℚ => a ≤ b)
  · have h1 : List.Perm ((List.insertionSort lexLE (losses.zip configs)).map Prod.fst)
        ((losses.zip configs).map Prod.fst) := (List.perm_insertionSort _ _).map _
    rw [List.map_fst_zip losses configs (le_of_eq hlen.symm)] at h1
    exact h1.trans (List.perm_insertionSort _ _).symm
  · exact List.Pairwise.map Prod.fst (fun a b h => lexLE_fst h)
      (List.sorted_insertionSort lexLE (losses.zip configs))
  · exact List.sorted_insertionSort _ _

/-- C2: for equal-length inputs and any k between 1 and the input length,
top-k returns exactly k entries whose losses are the first k losses of a
full ascending sort (as lists, hence as multisets); for k equal to the
length it returns all entries reordered by loss.  The model is a pure
function, so the inputs are not mutated. -/
theorem top_k_matches_full_sort {α : Type} [LinearOrder α] (configs : List α)
    (losses : List ℚ) (k : ℤ) (hlen : configs.length = losses.length) (hk1 : 1 ≤ k)
    (hk2 : k.toNat ≤ configs.length) :
    ∃ C2 L2, top_k configs losses k = .ok (C2, L2) ∧
      C2.length = k.toNat ∧ L2.length = k.toNat ∧
      L2 = (List.insertionSort (fun a b : ℚ => a ≤ b) losses).take k.toNat ∧
      (k.toNat = configs.length → List.Perm (L2.zip C2) (losses.zip configs)) := by
  have hplen : (losses.zip configs).length = configs.length := by
    rw [List.length_zip]
    omega
  have hslen : (List.insertionSort lexLE (losses.zip configs)).length = configs.length :=
    (List.perm_insertionSort _ _).length_eq.trans hplen
  have htlen : ((List.insertionSort lexLE (losses.zip configs)).take k.toNat).length
      = k.toNat := by
    rw [List.length_take]
    omega
  have htne : (List.insertionSort lexLE (losses.zip configs)).take k.toNat ≠ [] := by
    intro h
    rw [h] at htlen
    simp at htlen
    omega
  obtain ⟨q, qs, hq⟩ := List.exists_cons_of_ne_nil htne
  refine ⟨(q :: qs).map Prod.snd, (q :: qs).map Prod.fst, ?_, ?_, ?_, ?_, ?_⟩
  · unfold top_k
    rw [if_neg (by omega), show nsmallest k.toNat (losses.zip configs) = q :: qs from hq]
  · rw [← hq, List.length_map]
    exact htlen
  · rw [← hq, List.length_map]
    exact htlen
  · rw [← hq, List.map_take, map_fst_insertionSort configs losses hlen]
  · intro hk3
    have hall : (List.insertionSort lexLE (losses.zip configs)).take k.toNat =
        List.insertionSort lexLE (losses.zip configs) := by
      rw [hk3, ← hslen, List.take_length]
    rw [← hq, hall, zip_fst_snd]
    exact List.perm_insertionSort _ _

/-- Witness for C2 at a concrete instance: three configurations, k = 2. -/
theorem top_k_matches_full_sort_witness :
    ∃ C2 L2, top_k [(10 : ℚ), 20, 30] [(3 : ℚ), 1, 2] 2 = .ok (C2, L2) ∧
      C2.length = (2 : ℤ).toNat ∧ L2.length = (2 : ℤ).toNat ∧
      L2 = (List.insertionSort (fun a b : ℚ => a ≤ b) [(3 : ℚ), 1, 2]).take (2 : ℤ).toNat ∧
      ((2 : ℤ).toNat = [(10 : ℚ), 20, 30].length →
        List.Perm (L2.zip C2) ([(3 : ℚ), 1, 2].zip [(10 : ℚ), 20, 30])) :=
  top_k_matches_full_sort [(10 : ℚ), 20, 30] [(3 : ℚ), 1, 2] 2 rfl (by norm_num)
    (by norm_num)

/-- C5 amended: the selection asserts only k at least 1.  For k below 1
it fails with AssertionError; for k at least 1 on a nonempty input of
equal lengths it returns min(k, len) entries, so a k strictly above the
input length returns all entries instead of failing. -/
theorem top_k_assert_iff {α : Type} [LinearOrder α] (configs : List α)
    (losses : List ℚ) (k : ℤ) (hlen : configs.length = losses.length)
    (hne : configs ≠ []) :
    (k < 1 → top_k configs losses k = .error .assertionError) ∧
    (1 ≤ k → ∃ C2 L2, top_k configs losses k = .ok (C2, L2) ∧
      C2.length = min k.toNat configs.length) := by
  constructor
  · intro hk
    unfold top_k
    rw [if_pos hk]
  · intro hk
    have hplen : (losses.zip configs).length = configs.length := by
      rw [List.length_zip]
      omega
    have hslen : (List.insertionSort lexLE (losses.zip configs)).length = configs.length :=
      (List.perm_insertionSort _ _).length_eq.trans hplen
    have hcpos : 0 < configs.length := List.length_pos.mpr hne
    have htlen : ((List.insertionSort lexLE (losses.zip configs)).take k.toNat).length
        = min k.toNat configs.length := by
      rw [List.length_take, hslen]
    have htne : (List.insertionSort lexLE (losses.zip configs)).take k.toNat ≠ [] := by
      intro h
      rw [h] at htlen
      simp at htlen
      omega
    obtain ⟨q, qs, hq⟩ := List.exists_cons_of_ne_nil htne
    refine ⟨(q :: qs).map Prod.snd, (q :: qs).map Prod.fst, ?_, ?_⟩
    · unfold top_k
      rw [if_neg (by omega), show nsmallest k.toNat (losses.zip configs) = q :: qs from hq]
    · rw [← hq, List.length_map]
      exact htlen

/-- C5 counterexample: k = 2 on a single-entry input returns a result
(all entries, sorted) instead of failing with an invalid-argument
condition. -/
theorem top_k_k_gt_len_returns :
    top_k [(5 : ℚ)] [(1 : ℚ)] 2 = .ok ([5], [1]) := rfl

/-- Witness for the amended C5 at concrete inputs: k = 0 fails the
assert, k = 2 on one entry succeeds with one entry. -/
theorem top_k_assert_iff_witness :
    top_k [(5 : ℚ)] [(1 : ℚ)] 0 = .error .assertionError ∧
      ∃ C2 L2, top_k [(5 : ℚ)] [(1 : ℚ)] 2 = .ok (C2, L2) ∧
        C2.length = min (2 : ℤ).toNat [(5 : ℚ)].length :=
  ⟨(top_k_assert_iff [(5 : ℚ)] [(1 : ℚ)] 0 rfl (by simp)).1 (by norm_num),
    (top_k_assert_iff [(5 : ℚ)] [(1 : ℚ)] 2 rfl (by simp)).2 (by norm_num)⟩

theorem one_le_rungK (eta : ℚ) (nI : ℤ) : 1 ≤ rungK eta nI :=
  le_max_left _ _

/-- C8: the survivor count max(1, floor(nI / eta)) computed by the rung
loop is always at least 1, so the assert of the top-k selection can never
fire from the bracket loop of either variant. -/
theorem rungK_always_ge_one {α : Type} [LinearOrder α] (f : α → ℚ → ℚ) (r eta : ℚ)
    (n : ℤ) (i : ℕ) (T : List α) :
    1 ≤ rungK eta ⌊(n : ℚ) * eta ^ (-(i : ℤ))⌋ ∧
      rungStep f r eta n i T ≠ Except.error PyErr.assertionError := by
  refine ⟨one_le_rungK _ _, ?_⟩
  rw [rungStep_def]
  unfold top_k
  rw [if_neg (not_lt.mpr (one_le_rungK _ _))]
  cases h : nsmallest (rungK eta ⌊(n : ℚ) * eta ^ (-(i : ℤ))⌋).toNat
      ((T.map fun t => f t (r * eta ^ i)).zip T) with
  | nil => simp [h]
  | cons q qs => simp [h]

/-- C6 amended: construction fails with the InvalidParameter ValueError
exactly on R below 1 (checked first) or eta not positive; for eta equal
to 1 both guards pass but computing s_max raises ZeroDivisionError; in
all remaining cases construction succeeds and stores
s_max = floor(log_eta R) and B = (s_max + 1) * R. -/
theorem mkHyperband_cases (R eta : ℚ) :
    (R < 1 → mkHyperband R eta = .error (.valueError rMsg)) ∧
    (1 ≤ R → eta ≤ 0 → mkHyperband R eta = .error (.valueError etaMsg)) ∧
    (1 ≤ R → eta = 1 → mkHyperband R eta = .error .zeroDivisionError) ∧
    (1 ≤ R → 0 < eta → eta ≠ 1 →
      mkHyperband R eta = .ok ⟨R, eta, floorLogQ eta R, (floorLogQ eta R + 1) * R⟩) := by
  refine ⟨?_, ?_, ?_, ?_⟩ <;> unfold mkHyperband
  · intro h
    rw [if_pos h]
  · intro h1 h2
    rw [if_neg (by linarith), if_pos h2]
  · intro h1 h2
    rw [if_neg (by linarith), if_neg (by rw [h2]; norm_num), if_pos h2]
  · intro h1 h2 h3
    rw [if_neg (by linarith), if_neg (by linarith), if_neg h3]

/-- C6 counterexample: R = 2 and eta = 1 satisfy R at least 1 and eta
positive, yet construction fails, and with ZeroDivisionError rather than
the InvalidParameter ValueError. -/
theorem mkHyperband_eta_one_fails :
    mkHyperband 2 1 = .error PyErr.zeroDivisionError := by
  unfold mkHyperband
  rw [if_neg (by norm_num), if_neg (by norm_num), if_pos rfl]

/-- Witness for the amended C6 at concrete parameters. -/
theorem mkHyperband_cases_witness :
    mkHyperband (1/2 : ℚ) 3 = .error (.valueError rMsg) ∧
      mkHyperband 2 (-1 : ℚ) = .error (.valueError etaMsg) ∧
      mkHyperband 2 1 = .error .zeroDivisionError ∧
      mkHyperband 2 3 = .ok ⟨2, 3, floorLogQ 3 2, (floorLogQ 3 2 + 1) * 2⟩ :=
  ⟨(mkHyperband_cases (1/2) 3).1 (by norm_num),
    (mkHyperband_cases 2 (-1)).2.1 (by norm_num) (by norm_num),
    (mkHyperband_cases 2 1).2.2.1 (by norm_num) rfl,
    (mkHyperband_cases 2 3).2.2.2 (by norm_num) (by norm_num) (by norm_num)⟩

theorem rungStep_nil {α : Type} [LinearOrder α] (f : α → ℚ → ℚ) (r eta : ℚ) (n : ℤ)
    (i : ℕ) :
    rungStep f r eta n i ([] : List α) = .error (.valueError unpackMsg) := by
  rw [rungStep_def]
  unfold top_k
  rw [if_neg (not_lt.mpr (one_le_rungK _ _))]
  rw [show nsmallest (rungK eta ⌊(n : ℚ) * eta ^ (-(i : ℤ))⌋).toNat
    ((List.map (fun t => f t (r * eta ^ i)) ([] : List α)).zip []) = [] from by
      simp [nsmallest]]

theorem runRungsFrom_nil {α : Type} [LinearOrder α] (f : α → ℚ → ℚ) (r eta : ℚ)
    (n : ℤ) : ∀ (m i : ℕ),
    runRungsFrom f r eta n i ([] : List α) m = .error (.valueError unpackMsg)
  | 0, i => rungStep_nil f r eta n i
  | m + 1, i => by
    show (do
      let (T2, _) ← rungStep f r eta n i ([] : List α)
      runRungsFrom f r eta n (i + 1) T2 m) = _
    rw [rungStep_nil, except_bind_err]

theorem seqBracket_nil {α : Type} [LinearOrder α] (sampler : ℤ → List α)
    (f : α → ℚ → ℚ) (p : Params) (s : ℕ) (hs : sampler (bracketN p s) = []) :
    seqBracket sampler f p s = .error (.valueError unpackMsg) := by
  show (do
    let (T2, L2) ← runRungsFrom f (bracketR p s) p.eta (bracketN p s) 0
      (sampler (bracketN p s)) s
    evalOfHead T2 L2) = _
  rw [hs, runRungsFrom_nil, except_bind_err]

theorem bracketLoop_cons {α : Type} [LinearOrder α] (sampler : ℤ → List α)
    (f : α → ℚ → ℚ) (p : Params) (s : ℕ) (ss : List ℕ)
    (best : Option (ConfigEvaluation α)) :
    bracketLoop sampler f p (s :: ss) best =
      seqBracket sampler f p s >>= fun ev =>
        bracketLoop sampler f p ss (betterEval best ev) := rfl

theorem seqRunP_eq {α : Type} [LinearOrder α] (sampler : ℤ → List α) (f : α → ℚ → ℚ)
    (p : Params) :
    seqRunP sampler f p =
      bracketLoop sampler f p (descRange p.sMax) none >>= fun best =>
        match best with
        | some b => .ok b
        | none => .error (.runtimeError noResultMsg) := rfl

theorem seqRun_eq {α : Type} [LinearOrder α] (sampler : ℤ → List α) (f : α → ℚ → ℚ)
    (R eta : ℚ) :
    seqRun sampler f R eta = mkHyperband R eta >>= seqRunP sampler f := rfl

/-- C3 amended: with a sampler that always returns an empty sequence (and
valid parameters with eta above 1), run never returns a ConfigEvaluation,
but it fails with the ValueError raised by tuple unpacking inside the
top-k selection of the very first rung, not with the NoResult
RuntimeError, which is reachable only when the schedule has zero
brackets. -/
theorem run_empty_sampler_value_error {α : Type} [LinearOrder α] (sampler : ℤ → List α)
    (f : α → ℚ → ℚ) (hs : ∀ n, sampler n = []) (R eta : ℚ) (hR : 1 ≤ R)
    (heta : 1 < eta) :
    seqRun sampler f R eta = .error (.valueError unpackMsg) := by
  rw [seqRun_eq, mkHyperband_pos hR heta, except_bind_ok, seqRunP_eq]
  have hsm : (⟨R, eta, floorLogQ eta R, (floorLogQ eta R + 1) * R⟩ : Params).sMax
      = floorLogQ eta R := rfl
  rw [hsm, descRange_of_nonneg (floorLogQ_nonneg R heta), bracketLoop_cons,
    seqBracket_nil sampler f _ _ (hs _), except_bind_err, except_bind_err]

/-- C3 counterexample: at R = 1, eta = 3 with the empty sampler, run
fails with the unpacking ValueError, not with the NoResult RuntimeError
of the claim. -/
theorem run_empty_sampler_concrete :
    seqRun (fun _ => ([] : List ℚ)) (fun _ _ => 0) 1 3 =
      .error (.valueError unpackMsg) := by
  rw [seqRun_eq, mkHyperband_pos (by norm_num) (by norm_num), except_bind_ok, seqRunP_eq]
  have hsm : (⟨1, 3, floorLogQ 3 1, (floorLogQ 3 1 + 1) * 1⟩ : Params).sMax
      = floorLogQ 3 1 := rfl
  rw [hsm, descRange_of_nonneg (floorLogQ_nonneg 1 (by norm_num)), bracketLoop_cons,
    seqBracket_nil _ _ _ _ rfl, except_bind_err, except_bind_err]

/-- Witness for the amended C3 at concrete parameters R = 2, eta = 3. -/
theorem run_empty_sampler_value_error_witness :
    seqRun (fun _ => ([] : List ℚ)) (fun _ _ => 1) 2 3 =
      .error (.valueError unpackMsg) :=
  run_empty_sampler_value_error (fun _ => ([] : List ℚ)) (fun _ _ => 1)
    (fun _ => rfl) 2 3 (by norm_num) (by norm_num)

theorem floorLogQ_one {eta : ℚ} (heta : 1 < eta) : floorLogQ eta 1 = 0 := by
  unfold floorLogQ
  rw [if_pos heta]
  norm_num
  rw [Nat.findGreatest_eq_zero_iff]
  intro m hm _ hle
  exact absurd hle (not_le.mpr (one_lt_pow₀ heta (by omega)))

theorem top_k_singleton {α : Type} [LinearOrder α] (c : α) (l : ℚ) (k : ℤ)
    (hk : 1 ≤ k) : top_k [c] [l] k = .ok ([c], [l]) := by
  unfold top_k
  rw [if_neg (by omega)]
  obtain ⟨m, hm⟩ : ∃ m, k.toNat = m + 1 := ⟨k.toNat - 1, by omega⟩
  rw [show nsmallest k.toNat ([l].zip [c]) = [(l, c)] from by
    unfold nsmallest
    rw [hm]
    simp]
  rfl

theorem rungStep_single {α : Type} [LinearOrder α] (f : α → ℚ → ℚ) (r eta : ℚ)
    (n : ℤ) (i : ℕ) (c : α) :
    rungStep f r eta n i [c] = .ok ([c], [f c (r * eta ^ i)]) := by
  rw [rungStep_def]
  exact top_k_singleton c _ _ (one_le_rungK _ _)

theorem runRungsFromI_zero {α : Type} [LinearOrder α] (f : α → ℚ → ℚ) (r eta : ℚ)
    (n : ℤ) (i : ℕ) (T : List α) (evals topks : ℕ) :
    runRungsFromI f r eta n i T evals topks 0 = (rungStep f r eta n i T) >>= fun x =>
      Except.ok (x.1, x.2, evals + T.length, topks + 1) := by
  show (do
    let (T2, L2) ← rungStep f r eta n i T
    Except.ok (T2, L2, evals + T.length, topks + 1)) = _
  cases rungStep f r eta n i T with
  | error e => rfl
  | ok x => cases x with
    | mk T2 L2 => rfl

/-- C4 amended: run_bracket called with n = 1 computes s = 0, evaluates
the single sampled configuration exactly once at resource r, and returns
it with that loss, but the top-k selection is invoked exactly once (with
k = 1), not zero times. -/
theorem dist_bracket_single_config {α : Type} [LinearOrder α] (c : α) (f : α → ℚ → ℚ)
    (eta r : ℚ) (heta : 1 < eta) :
    floorLogQ eta 1 = 0 ∧
      distBracketI (fun _ => [c]) f eta 1 r = .ok (⟨c, f c r⟩, 1, 1) := by
  refine ⟨floorLogQ_one heta, ?_⟩
  unfold distBracketI
  rw [if_neg (by norm_num)]
  rw [show floorLogQ eta ((1 : ℤ) : ℚ) = 0 from by rw [Int.cast_one]; exact floorLogQ_one heta]
  rw [if_neg (by norm_num), show (0 : ℤ).toNat = 0 from rfl, runRungsFromI_zero,
    rungStep_single, except_bind_ok]
  rw [show r * eta ^ (0 : ℕ) = r from by rw [pow_zero, mul_one]]
  rfl

/-- C4 counterexample: at n = 1 with sampler returning [7], evaluator
f c r = c + r, eta = 3 and r = 5, the instrumented run_bracket returns
the single configuration with its single evaluation, but its top-k
invocation count is 1, not 0. -/
theorem dist_bracket_single_config_concrete :
    distBracketI (fun _ => [(7 : ℚ)]) (fun c r => c + r) 3 1 5 = .ok (⟨7, 12⟩, 1, 1) := by
  unfold distBracketI
  rw [if_neg (by norm_num)]
  rw [show floorLogQ 3 ((1 : ℤ) : ℚ) = 0 from by
    rw [Int.cast_one]; exact floorLogQ_one (by norm_num)]
  rw [if_neg (by norm_num), show (0 : ℤ).toNat = 0 from rfl, runRungsFromI_zero,
    rungStep_single, except_bind_ok]
  norm_num
  rfl

/-- C7: the claim that selection succeeds and never inspects opaque
configurations is right as a specification, but the code compares
configuration values whenever two losses are exactly equal: with two
tied losses and a configuration type supporting no comparison, top-k
raises TypeError, while with distinct losses it succeeds without ever
comparing configurations. -/
theorem top_k_tie_type_error :
    top_kNoOrder (fun (_ _ : Bool) => none) [true, false] [(0 : ℚ), 0] 1 =
        .error (.typeError cmpMsg) ∧
      top_kNoOrder (fun (_ _ : Bool) => none) [true, false] [(0 : ℚ), 1] 1 =
        .ok ([true], [0]) := by
  constructor
  · norm_num [top_kNoOrder, insertionSortF, orderedInsertF, pyLtPair, except_bind_ok,
      except_bind_err]
  · norm_num [top_kNoOrder, insertionSortF, orderedInsertF, pyLtPair, except_bind_ok,
      except_bind_err]

theorem floorLogQ_81 : floorLogQ 3 81 = 4 := by
  unfold floorLogQ
  rw [if_pos (by norm_num)]
  have h : Nat.findGreatest (fun s => (3 : ℚ) ^ s ≤ 81) (logUB 3 81) = 4 := by
    rw [Nat.findGreatest_eq_iff]
    refine ⟨?_, fun _ => by norm_num, ?_⟩
    · unfold logUB
      rw [Rat.den_ofNat, Rat.num_ofNat]
      norm_num
    · intro m hm _
      rw [not_le]
      calc (81 : ℚ) < 3 ^ 5 := by norm_num
        _ ≤ 3 ^ m := by
          apply pow_le_pow_right₀ (by norm_num)
          omega
  rw [h]
  norm_num

/-- C9: for R = 81 and eta = 3 the constructor computes s_max = 4 and
B = 405, and the planner produces exactly the brackets
(4, 81, 1), (3, 34, 3), (2, 15, 9), (1, 8, 27), (0, 5, 81) in descending
order of s, with n = ceil(B * eta ^ s / (R * (s + 1))) and
r = R * eta ^ (-s). -/
theorem schedule_81_3 :
    mkHyperband 81 3 = .ok ⟨81, 3, 4, 405⟩ ∧
      scheduleOf ⟨81, 3, 4, 405⟩ =
        [(4, 81, 1), (3, 34, 3), (2, 15, 9), (1, 8, 27), (0, 5, 81)] := by
  constructor
  · rw [mkHyperband_pos (by norm_num) (by norm_num), floorLogQ_81]
    norm_num
  · unfold scheduleOf
    rw [show descRange (⟨81, 3, 4, 405⟩ : Params).sMax = [4, 3, 2, 1, 0] from rfl]
    simp only [List.map_cons, List.map_nil, bracketN, bracketR]
    norm_num [Int.ceil_eq_iff]

theorem bracketN_pos (p : Params) (hR : 1 ≤ p.R) (heta : 1 < p.eta)
    (hB : p.B = ((p.sMax : ℚ) + 1) * p.R) (hsM : 0 ≤ p.sMax) (s : ℕ) :
    1 ≤ bracketN p s := by
  unfold bracketN
  have h0 : (0 : ℚ) ≤ (p.sMax : ℚ) := by exact_mod_cast hsM
  have hR0 : (0 : ℚ) < p.R := by linarith
  have he0 : (0 : ℚ) < p.eta := by linarith
  have h1 : (0 : ℚ) < p.B * p.eta ^ s / (p.R * ((s : ℚ) + 1)) := by
    rw [hB]
    apply div_pos
    · exact mul_pos (mul_pos (by linarith) hR0) (pow_pos he0 s)
    · exact mul_pos hR0 (by positivity)
  have h2 : (0 : ℤ) < ⌈p.B * p.eta ^ s / (p.R * ((s : ℚ) + 1))⌉ :=
    Int.lt_ceil.mpr (by exact_mod_cast h1)
  omega

/-- A distributed bracket with a nonempty sample, a positive population
count and a resource-independent evaluator returns the lexLE-minimal
(loss, config) pair of its sample, whatever its own rung count is. -/
theorem distBracket_ok {α : Type} [LinearOrder α] (sampler : ℤ → List α)
    (f : α → ℚ → ℚ) (g : α → ℚ) (hf : ∀ x ρ, f x ρ = g x) (eta : ℚ) (heta : 1 < eta)
    (n : ℤ) (hn : 1 ≤ n) (r : ℚ) (hT : sampler n ≠ []) :
    ∃ c, distBracket sampler f eta n r = .ok ⟨c, g c⟩ ∧ c ∈ sampler n ∧
      ∀ x ∈ sampler n, lexLE (g c, c) (g x, x) := by
  unfold distBracket
  rw [if_neg (not_le.mpr (by exact_mod_cast hn : (0 : ℚ) < (n : ℚ)))]
  rw [if_neg (not_lt.mpr (floorLogQ_nonneg _ heta))]
  obtain ⟨c, T2, heq, hmem, hmin⟩ := runRungsFrom_ok f g hf r eta n
    (floorLogQ eta (n : ℚ)).toNat 0 (sampler n) hT
  refine ⟨c, ?_, hmem c (List.mem_cons_self c T2), hmin⟩
  rw [heq, except_bind_ok]
  exact evalOfHead_map g c T2

/-- With a resource-independent evaluator, every distributed bracket
returns exactly what the sequential bracket of the same index returns:
both are the unique lexLE-minimal pair of the same sample. -/
theorem distBracket_eq_seqBracket {α : Type} [LinearOrder α] (sampler : ℤ → List α)
    (f : α → ℚ → ℚ) (g : α → ℚ) (hf : ∀ x ρ, f x ρ = g x) (hs : ∀ n, sampler n ≠ [])
    (p : Params) (hR : 1 ≤ p.R) (heta : 1 < p.eta)
    (hB : p.B = ((p.sMax : ℚ) + 1) * p.R) (hsM : 0 ≤ p.sMax) (s : ℕ) :
    distBracket sampler f p.eta (bracketN p s) (bracketR p s) = seqBracket sampler f p s := by
  obtain ⟨c1, hd, hd1, hd2⟩ := distBracket_ok sampler f g hf p.eta heta (bracketN p s)
    (bracketN_pos p hR heta hB hsM s) (bracketR p s) (hs _)
  obtain ⟨c2, hq, hq1, hq2⟩ := seqBracket_ok sampler f g hf p s (hs _)
  have hc : c1 = c2 :=
    congrArg Prod.snd (lexLE.isAntisymm.antisymm _ _ (hd2 c2 hq1) (hq2 c1 hd1))
  rw [hd, hq, hc]

theorem gatherBrackets_cons {α : Type} [LinearOrder α] (sampler : ℤ → List α)
    (f : α → ℚ → ℚ) (p : Params) (s : ℕ) (ss : List ℕ) :
    gatherBrackets sampler f p (s :: ss) =
      distBracket sampler f p.eta (bracketN p s) (bracketR p s) >>= fun ev =>
        gatherBrackets sampler f p ss >>= fun rest => .ok (ev :: rest) := rfl

theorem distRun_eq {α : Type} [LinearOrder α] (sampler : ℤ → List α) (f : α → ℚ → ℚ)
    (R eta : ℚ) :
    distRun sampler f R eta = mkHyperband R eta >>= fun p =>
      gatherBrackets sampler f p (descRange p.sMax) >>= fun results =>
        match minByLoss results with
        | some b => .ok b
        | none => .error (.valueError emptyMinMsg) := rfl

/-- When every bracket agrees between the two variants and succeeds, the
gathered list exists and the sequential fold equals folding the best-so-far
update over the gathered results. -/
theorem loop_eq_gather {α : Type} [LinearOrder α] (sampler : ℤ → List α)
    (f : α → ℚ → ℚ) (p : Params)
    (hbr : ∀ s : ℕ, distBracket sampler f p.eta (bracketN p s) (bracketR p s)
      = seqBracket sampler f p s)
    (hok : ∀ s : ℕ, ∃ w, seqBracket sampler f p s = .ok w) :
    ∀ (ss : List ℕ) (best : Option (ConfigEvaluation α)),
    ∃ ws, gatherBrackets sampler f p ss = .ok ws ∧
      bracketLoop sampler f p ss best = .ok (ws.foldl betterEval best) := by
  intro ss
  induction ss with
  | nil => exact fun best => ⟨[], rfl, rfl⟩
  | cons s ss ih =>
    intro best
    obtain ⟨w, hw⟩ := hok s
    obtain ⟨ws, hws, hloop⟩ := ih (betterEval best w)
    refine ⟨w :: ws, ?_, ?_⟩
    · rw [gatherBrackets_cons, hbr s, hw, except_bind_ok, hws, except_bind_ok]
    · rw [bracketLoop_cons, hw, except_bind_ok, hloop, List.foldl_cons]

theorem betterEval_none_some {α : Type} (ev : ConfigEvaluation α) :
    betterEval none ev = some ev := rfl

theorem foldl_betterEval_some {α : Type} :
    ∀ (l : List (ConfigEvaluation α)) (b : ConfigEvaluation α),
    ∃ v, l.foldl betterEval (some b) = some v
  | [], b => ⟨b, rfl⟩
  | ev :: l, b => by
    rw [List.foldl_cons]
    have h : ∃ b2, betterEval (some b) ev = some b2 := by
      unfold betterEval
      by_cases h : ev.loss < b.loss
      · exact ⟨ev, if_pos h⟩
      · exact ⟨b, if_neg h⟩
    obtain ⟨b2, hb2⟩ := h
    rw [hb2]
    exact foldl_betterEval_some l b2

theorem gatherBrackets_ne_nil {α : Type} [LinearOrder α] (sampler : ℤ → List α)
    (f : α → ℚ → ℚ) (p : Params) (s : ℕ) (ss : List ℕ) (ws : List (ConfigEvaluation α))
    (h : gatherBrackets sampler f p (s :: ss) = .ok ws) : ws ≠ [] := by
  rw [gatherBrackets_cons] at h
  cases hd : distBracket sampler f p.eta (bracketN p s) (bracketR p s) with
  | error e => rw [hd, except_bind_err] at h; exact absurd h (by simp)
  | ok ev =>
    rw [hd, except_bind_ok] at h
    cases hg : gatherBrackets sampler f p ss with
    | error e => rw [hg, except_bind_err] at h; exact absurd h (by simp)
    | ok rest =>
      rw [hg, except_bind_ok] at h
      have : ev :: rest = ws := by
        have := h
        simpa using this
      rw [← this]
      simp

/-- C10 amended: for R at least 1, eta above 1, a deterministic sampler
always producing a nonempty sample, and a deterministic evaluator whose
loss does not depend on the resource level, the distributed run returns
exactly the sequential run: both derive the same schedule, every bracket
of both variants returns the unique lexLE-minimal pair of the same
sample (even though the distributed variant may run more rungs), and
both aggregations keep the earliest-submitted winner on ties. -/
theorem dist_run_eq_seq_run {α : Type} [LinearOrder α] (sampler : ℤ → List α)
    (f : α → ℚ → ℚ) (g : α → ℚ) (hf : ∀ x ρ, f x ρ = g x) (hs : ∀ n, sampler n ≠ [])
    (R eta : ℚ) (hR : 1 ≤ R) (heta : 1 < eta) :
    distRun sampler f R eta = seqRun sampler f R eta := by
  have hsM : (0 : ℤ) ≤ floorLogQ eta R := floorLogQ_nonneg R heta
  have hbr : ∀ s : ℕ, distBracket sampler f
      (⟨R, eta, floorLogQ eta R, (floorLogQ eta R + 1) * R⟩ : Params).eta
      (bracketN ⟨R, eta, floorLogQ eta R, (floorLogQ eta R + 1) * R⟩ s)
      (bracketR ⟨R, eta, floorLogQ eta R, (floorLogQ eta R + 1) * R⟩ s)
      = seqBracket sampler f ⟨R, eta, floorLogQ eta R, (floorLogQ eta R + 1) * R⟩ s :=
    fun s => distBracket_eq_seqBracket sampler f g hf hs _ hR heta rfl hsM s
  have hok : ∀ s : ℕ, ∃ w, seqBracket sampler f
      ⟨R, eta, floorLogQ eta R, (floorLogQ eta R + 1) * R⟩ s = .ok w := fun s => by
    obtain ⟨c, hc, _, _⟩ := seqBracket_ok sampler f g hf _ s (hs _)
    exact ⟨⟨c, g c⟩, hc⟩
  obtain ⟨ws, hws, hloop⟩ := loop_eq_gather sampler f _ hbr hok
    (descRange (floorLogQ eta R)) none
  have hdesc : descRange (floorLogQ eta R) =
      (floorLogQ eta R).toNat :: (List.range (floorLogQ eta R).toNat).reverse :=
    descRange_of_nonneg hsM
  have hws_ne : ws ≠ [] := by
    apply gatherBrackets_ne_nil sampler f
      ⟨R, eta, floorLogQ eta R, (floorLogQ eta R + 1) * R⟩ (floorLogQ eta R).toNat
      (List.range (floorLogQ eta R).toNat).reverse
    rw [← hdesc]
    exact hws
  obtain ⟨w0, ws2, hwsc⟩ := List.exists_cons_of_ne_nil hws_ne
  subst hwsc
  obtain ⟨v, hv⟩ := foldl_betterEval_some ws2 w0
  have hfold : (w0 :: ws2).foldl betterEval none = some v := by
    rw [List.foldl_cons, betterEval_none_some]
    exact hv
  rw [distRun_eq, seqRun_eq,
    mkHyperband_pos hR heta, except_bind_ok, except_bind_ok, seqRunP_eq, hws, hloop,
    except_bind_ok, except_bind_ok, hfold]
  rw [show minByLoss (w0 :: ws2) = some v from hfold]

/-- Witness for the amended C10 at a concrete instance: constant sampler
[7], evaluator returning the configuration itself (independent of the
resource), R = 2, eta = 2. -/
theorem dist_run_eq_seq_run_witness :
    distRun (fun _ => [(7 : ℚ)]) (fun c _ => c) 2 2 =
      seqRun (fun _ => [(7 : ℚ)]) (fun c _ => c) 2 2 :=
  dist_run_eq_seq_run (fun _ => [(7 : ℚ)]) (fun c _ => c) (fun c => c)
    (fun _ _ => rfl) (fun _ => by simp) 2 2 (by norm_num) (by norm_num)

/-- Witness for the amended C4 at concrete parameters eta = 2, r = 7. -/
theorem dist_bracket_single_config_witness :
    floorLogQ 2 1 = 0 ∧
      distBracketI (fun _ => [(9 : ℚ)]) (fun c _ => c) 2 1 7 = .ok (⟨9, 9⟩, 1, 1) :=
  dist_bracket_single_config (9 : ℚ) (fun c _ => c) 2 7 (by norm_num)

theorem runRungsFrom_single {α : Type} [LinearOrder α] (f : α → ℚ → ℚ) (r eta : ℚ)
    (n : ℤ) (c : α) : ∀ (m i : ℕ),
    runRungsFrom f r eta n i [c] m = .ok ([c], [f c (r * eta ^ (i + m))])
  | 0, i => by
    rw [show runRungsFrom f r eta n i [c] 0 = rungStep f r eta n i [c] from rfl,
      rungStep_single, Nat.add_zero]
  | m + 1, i => by
    show (do
      let (T2, _) ← rungStep f r eta n i [c]
      runRungsFrom f r eta n (i + 1) T2 m) = _
    rw [rungStep_single, except_bind_ok]
    show runRungsFrom f r eta n (i + 1) [c] m = _
    rw [runRungsFrom_single f r eta n c m (i + 1),
      show i + 1 + m = i + (m + 1) from by omega]

theorem seqBracket_single {α : Type} [LinearOrder α] (f : α → ℚ → ℚ) (p : Params)
    (s : ℕ) (c : α) :
    seqBracket (fun _ => [c]) f p s = .ok ⟨c, f c (bracketR p s * p.eta ^ s)⟩ := by
  show (do
    let (T2, L2) ← runRungsFrom f (bracketR p s) p.eta (bracketN p s) 0 [c] s
    evalOfHead T2 L2) = _
  rw [runRungsFrom_single f _ _ _ c s 0, except_bind_ok, Nat.zero_add]
  rfl

theorem distBracket_single {α : Type} [LinearOrder α] (f : α → ℚ → ℚ) (eta : ℚ)
    (heta : 1 < eta) (n : ℤ) (hn : 1 ≤ n) (r : ℚ) (c : α) :
    distBracket (fun _ => [c]) f eta n r =
      .ok ⟨c, f c (r * eta ^ (floorLogQ eta (n : ℚ)).toNat)⟩ := by
  unfold distBracket
  rw [if_neg (not_le.mpr (by exact_mod_cast hn : (0 : ℚ) < (n : ℚ)))]
  rw [if_neg (not_lt.mpr (floorLogQ_nonneg _ heta))]
  show (do
    let (T2, L2) ← runRungsFrom f r eta n 0 [c] (floorLogQ eta (n : ℚ)).toNat
    evalOfHead T2 L2) = _
  rw [runRungsFrom_single f r eta n c (floorLogQ eta (n : ℚ)).toNat 0, except_bind_ok,
    Nat.zero_add]
  rfl

theorem floorLogQ_two_two : floorLogQ 2 2 = 1 := by
  unfold floorLogQ
  rw [if_pos (by norm_num)]
  have h : Nat.findGreatest (fun s => (2 : ℚ) ^ s ≤ 2) (logUB 2 2) = 1 := by
    rw [Nat.findGreatest_eq_iff]
    refine ⟨?_, fun _ => by norm_num, ?_⟩
    · unfold logUB
      rw [Rat.den_ofNat, Rat.num_ofNat]
      norm_num
    · intro m hm _
      rw [not_le]
      calc (2 : ℚ) < 2 ^ 2 := by norm_num
        _ ≤ 2 ^ m := by
          apply pow_le_pow_right₀ (by norm_num)
          omega
  rw [h]
  norm_num

theorem bracketLoop_nil {α : Type} [LinearOrder α] (sampler : ℤ → List α)
    (f : α → ℚ → ℚ) (p : Params) (best : Option (ConfigEvaluation α)) :
    bracketLoop sampler f p [] best = .ok best := rfl

theorem gatherBrackets_nil {α : Type} [LinearOrder α] (sampler : ℤ → List α)
    (f : α → ℚ → ℚ) (p : Params) :
    gatherBrackets sampler f p [] = .ok [] := rfl

/-- C10 counterexample: with the constant sampler [7] and the
resource-dependent evaluator returning minus the resource, at R = 2,
eta = 2 the two variants disagree.  Bracket s = 0 has n = 2, so the
distributed successive_halving computes its own rung count
floor(log_2 2) = 1 and runs a second rung at resource 4, reporting loss
-4, while the sequential variant runs only rung i = 0 of bracket s = 0;
the distributed run therefore returns loss -4 and the sequential run
returns loss -2. -/
theorem dist_run_neq_seq_run_concrete :
    seqRun (fun _ => [(7 : ℚ)]) (fun _ r => -r) 2 2 = .ok ⟨7, -2⟩ ∧
      distRun (fun _ => [(7 : ℚ)]) (fun _ r => -r) 2 2 = .ok ⟨7, -4⟩ := by
  have hp : mkHyperband (2 : ℚ) 2 = .ok ⟨2, 2, 1, 4⟩ := by
    rw [mkHyperband_pos (by norm_num) (by norm_num), floorLogQ_two_two]
    norm_num
  have hn1 : bracketN (⟨2, 2, 1, 4⟩ : Params) 1 = 2 := by
    unfold bracketN
    norm_num [Int.ceil_eq_iff]
  have hn0 : bracketN (⟨2, 2, 1, 4⟩ : Params) 0 = 2 := by
    unfold bracketN
    norm_num [Int.ceil_eq_iff]
  have hr1 : bracketR (⟨2, 2, 1, 4⟩ : Params) 1 = 1 := by
    unfold bracketR
    norm_num
  have hr0 : bracketR (⟨2, 2, 1, 4⟩ : Params) 0 = 2 := by
    unfold bracketR
    norm_num
  have hs1 : seqBracket (fun _ => [(7 : ℚ)]) (fun _ r => -r) ⟨2, 2, 1, 4⟩ 1 =
      .ok ⟨7, -2⟩ := by
    rw [seqBracket_single, hr1]
    norm_num
  have hs0 : seqBracket (fun _ => [(7 : ℚ)]) (fun _ r => -r) ⟨2, 2, 1, 4⟩ 0 =
      .ok ⟨7, -2⟩ := by
    rw [seqBracket_single, hr0]
    norm_num
  have hcast : ((2 : ℤ) : ℚ) = (2 : ℚ) := by norm_num
  have hd1 : distBracket (fun _ => [(7 : ℚ)]) (fun _ r => -r) 2 2 1 = .ok ⟨7, -2⟩ := by
    rw [distBracket_single _ 2 (by norm_num) 2 (by norm_num) 1 7, hcast, floorLogQ_two_two]
    norm_num
  have hd0 : distBracket (fun _ => [(7 : ℚ)]) (fun _ r => -r) 2 2 2 = .ok ⟨7, -4⟩ := by
    rw [distBracket_single _ 2 (by norm_num) 2 (by norm_num) 2 7, hcast, floorLogQ_two_two]
    norm_num
  constructor
  · rw [seqRun_eq, hp, except_bind_ok, seqRunP_eq]
    simp only [show descRange ((⟨2, 2, 1, 4⟩ : Params).sMax) = [1, 0] from rfl,
      bracketLoop_cons, hs1, hs0, except_bind_ok, bracketLoop_nil]
    norm_num [betterEval]
  · rw [distRun_eq, hp, except_bind_ok]
    simp only [show descRange ((⟨2, 2, 1, 4⟩ : Params).sMax) = [1, 0] from rfl,
      gatherBrackets_cons, hn1, hn0, hr1, hr0]
    simp only [show (⟨2, 2, 1, 4⟩ : Params).eta = 2 from rfl, hd1, hd0, except_bind_ok,
      gatherBrackets_nil]
    norm_num [minByLoss, betterEval]

end HyperbandModel
